import Mathlib

/-!
Verification development for the `f33_dataAutomation` repository.

The repository contains three Python scripts. `tester.py` and `tester2.py`
share the funding-parsing helpers `_parse_funding` and `_human_funding` and
the pipeline `top_funded_companies`; `usun_duplikat.py` has the variant
funding parser `cleanMoney`. This file gives a shallow embedding of those
functions and proves properties of the embedding.

Modelling conventions:
* A spreadsheet cell is `Option String`: `none` is a missing value (pandas
  `NaN`), `some s` a textual value. Already-numeric cells enter
  `_parse_funding` through Python `str()`, so they are represented by their
  decimal rendering.
* Python `float` values are modelled as `ℚ`. The strings `float()` is
  applied to in this code consist only of ASCII digits and dots (for
  `_parse_funding`, guaranteed by the regex; for `cleanMoney`, by the
  character filter together with the branch letter removal), and on that
  domain `float` succeeds exactly when the string has at least one digit
  and at most one dot; the guard `floatOk` models this and `decVal` the
  value. A raised `ValueError` is modelled as `Except.error`.
* Python string case/whitespace functions are modelled for the ASCII
  letters they act on in this data (`str.title`, `str.lower`, `str.upper`,
  default `str.strip`).
-/

namespace F33

/-! ### ASCII character primitives (Python `str` model) -/

/-- Blank characters stripped by Python `str.strip()` (ASCII model). -/
def wsChar (c : Char) : Bool := c == ' ' || c == '\t' || c == '\r' || c == '\n'

/-- ASCII decimal digit `0`-`9`. -/
def digitChar (c : Char) : Bool := 48 ≤ c.toNat && c.toNat ≤ 57

/-- ASCII uppercase letter `A`-`Z`. -/
def upperChar (c : Char) : Bool := 65 ≤ c.toNat && c.toNat ≤ 90

/-- ASCII lowercase letter `a`-`z`. -/
def lowerAlpha (c : Char) : Bool := 97 ≤ c.toNat && c.toNat ≤ 122

/-- A cased character (Python title-casing tracks these); ASCII model. -/
def casedChar (c : Char) : Bool := upperChar c || lowerAlpha c

/-- Python `str.lower` on one character (ASCII model). -/
def lowChar (c : Char) : Char :=
  if upperChar c then Char.ofNat (c.toNat + 32) else c

/-- Python `str.upper` on one character (ASCII model). -/
def upChar (c : Char) : Char :=
  if lowerAlpha c then Char.ofNat (c.toNat - 32) else c

/-- Python `str.strip()` on a character list: drop blank ends. -/
def stripL (l : List Char) : List Char :=
  ((l.dropWhile wsChar).reverse.dropWhile wsChar).reverse

/-- Python `str.strip()`. -/
def pyStrip (s : String) : String := String.mk (stripL s.data)

/-- Python `str.title()` body: `prev` records whether the previous character
was cased; a character after a cased one is lowercased, otherwise uppercased. -/
def titleAux : List Char → Bool → List Char
  | [], _ => []
  | c :: l, prev => (if prev then lowChar c else upChar c) :: titleAux l (casedChar c)

/-- Python `str.title()`. -/
def pyTitle (s : String) : String := String.mk (titleAux s.data false)

/-- Python `str.lower()`. -/
def lowerStr (s : String) : String := String.mk (s.data.map lowChar)

/-! ### `_parse_funding` (tester.py lines 19-42, tester2.py lines 19-35) -/

/-- A character the chained `replace` calls keep: everything except the
thousands comma and the currency symbols. -/
def keepChar (c : Char) : Bool := !(c == ',' || c == '$' || c == '€' || c == '£')

/-- The cleaned text: `str(raw).replace(",","").replace("$","")
.replace("€","").replace("£","").strip()`. -/
def cleanedOf (s : String) : List Char := stripL (s.data.filter keepChar)

/-- `pandas` `astype(str)` / `str()` of a cell: a missing value prints as
`"nan"`. -/
def cellStr : Option String → String
  | none => "nan"
  | some s => s

/-- A character matched by the regex class `[\d.]`. -/
def isNumChar (c : Char) : Bool := digitChar c || c == '.'

/-- A character matched by `[KMB]` with `re.I`. -/
def suffChar (c : Char) : Bool :=
  c == 'K' || c == 'M' || c == 'B' || c == 'k' || c == 'm' || c == 'b'

/-- Decimal value of a digit string (ASCII). -/
def natOf (l : List Char) : ℕ := l.foldl (fun a c => 10 * a + (c.toNat - 48)) 0

/-- Digits before the dot of a digit-and-dot string. -/
def intDigits (l : List Char) : List Char := l.takeWhile (fun c => !(c == '.'))

/-- Digits after the dot of a digit-and-dot string. -/
def fracDigits (l : List Char) : List Char := (l.dropWhile (fun c => !(c == '.'))).drop 1

/-- Python `float` succeeds on a string over the alphabet `[\d.]` iff it has
at most one dot and at least one digit. -/
def floatOk (l : List Char) : Bool :=
  l.all isNumChar && decide (l.count '.' ≤ 1) && l.any digitChar

/-- The value Python `float` returns on such a string. -/
def decVal (l : List Char) : ℚ :=
  (natOf (intDigits l) : ℚ) + (natOf (fracDigits l) : ℚ) / 10 ^ (fracDigits l).length

/-- `re.fullmatch(r"([\d.]+)\s*([KMB])?", text, re.I)`: the leading
`[\d.]+` run (greedy matching is exact here since no later regex piece can
consume a `[\d.]` character), then blanks, then an optional single suffix
letter, then end of string. Returns the two capture groups. -/
def fundingMatch (t : List Char) : Option (List Char × Option Char) :=
  let num := t.takeWhile isNumChar
  if num.isEmpty then none
  else
    match (t.dropWhile isNumChar).dropWhile wsChar with
    | [] => some (num, none)
    | [c] => if suffChar c then some (num, some c) else none
    | _ => none

/-- `_SUFFIX.get(m.group(2).upper() if m.group(2) else "", 1)`. -/
def suffMult : Option Char → ℚ
  | none => 1
  | some c =>
    if upChar c == 'K' then 1000
    else if upChar c == 'M' then 1000000
    else if upChar c == 'B' then 1000000000
    else 1

/-- `_parse_funding`: `Except.error ()` is a raised `ValueError`,
`.ok none` the `NaN` sentinel, `.ok (some q)` a parsed amount. -/
def parseFunding : Option String → Except Unit (Option ℚ)
  | none => .ok none
  | some raw =>
    match fundingMatch (cleanedOf raw) with
    | none => .ok none
    | some (num, suf) =>
      if floatOk num then .ok (some (decVal num * suffMult suf)) else .error ()

/-! ### `_human_funding` (tester.py lines 45-55) -/

/-- Round half to even, the rounding used by Python string formatting. -/
def rhe (q : ℚ) : ℤ :=
  if q - ⌊q⌋ < 1 / 2 then ⌊q⌋
  else if (1 : ℚ) / 2 < q - ⌊q⌋ then ⌊q⌋ + 1
  else if ⌊q⌋ % 2 = 0 then ⌊q⌋ else ⌊q⌋ + 1

/-- Insert a thousands comma after a digit whenever the remaining digit count
is a positive multiple of 3 (Python `,` grouping). -/
def digitsGroup : List Char → List Char
  | [] => []
  | c :: r =>
    c :: (if r.length % 3 == 0 && !r.isEmpty then ',' :: digitsGroup r else digitsGroup r)

/-- Python `f"{x:.1f}"`. -/
def fmtFixed1 (q : ℚ) : String :=
  (if rhe (q * 10) < 0 then "-" else "") ++
    Nat.repr ((rhe (q * 10)).natAbs / 10) ++ "." ++ Nat.repr ((rhe (q * 10)).natAbs % 10)

/-- Python `f"{x:.0f}"`. -/
def fmtFixed0 (q : ℚ) : String :=
  (if rhe q < 0 then "-" else "") ++ Nat.repr (rhe q).natAbs

/-- Python `f"{x:,.0f}"`. -/
def fmtGrouped (q : ℚ) : String :=
  (if rhe q < 0 then "-" else "") ++ String.mk (digitsGroup (Nat.repr (rhe q).natAbs).data)

/-- `_human_funding`: `none` is the `NaN` sentinel, rendered as `""`. -/
def humanFunding : Option ℚ → String
  | none => ""
  | some usd =>
    if usd ≥ 1000000000 then "$" ++ fmtFixed1 (usd / 1000000000) ++ "B"
    else if usd ≥ 1000000 then "$" ++ fmtFixed1 (usd / 1000000) ++ "M"
    else if usd ≥ 1000 then "$" ++ fmtFixed0 (usd / 1000) ++ "K"
    else "$" ++ fmtGrouped usd

/-! ### `cleanMoney` (usun_duplikat.py lines 8-25) -/

/-- A character kept by `re.sub(r"[^0-9.BMK]", "", money)`. -/
def goodChar (c : Char) : Bool :=
  digitChar c || c == '.' || c == 'B' || c == 'M' || c == 'K'

/-- `float(l) * mult` under the surrounding `try`: a failed `float` makes the
whole expression evaluate to `0` via `except`. -/
def floatOr0 (l : List Char) (mult : ℚ) : ℚ :=
  if floatOk l then decVal l * mult else 0

/-- `cleanMoney` on a text-or-missing cell. The `strip()` and
`replace(" ", "")` steps are subsumed by the `re.sub` filter, which also
removes every blank. `isna` gives the `0` sentinel here (not `NaN`). -/
def cleanMoney : Option String → ℚ
  | none => 0
  | some s =>
    if ((s.data.map upChar).filter goodChar).contains 'B' then
      floatOr0 (((s.data.map upChar).filter goodChar).filter (fun c => !(c == 'B'))) 1000000000
    else if ((s.data.map upChar).filter goodChar).contains 'M' then
      floatOr0 (((s.data.map upChar).filter goodChar).filter (fun c => !(c == 'M'))) 1000000
    else if ((s.data.map upChar).filter goodChar).contains 'K' then
      floatOr0 (((s.data.map upChar).filter goodChar).filter (fun c => !(c == 'K'))) 1000
    else floatOr0 ((s.data.map upChar).filter goodChar) 1

/-! ### `top_funded_companies` (tester.py lines 61-134)

The file-loading and file-writing collaborators are external: the pipeline
is modelled from the point where a tabular dataset is in memory (a header
list plus rows holding the three required columns) up to the ranked
aggregate rows. The final renaming/formatting into display columns keeps
the numeric aggregate here; `humanFunding` models the formatting pass. -/

/-- One raw input row restricted to the three required columns. -/
structure Row where
  company : Option String
  funding : Option String
  marketplace : Option String
deriving DecidableEq

/-- A row after line 99-100 of tester.py: normalized company, parsed funding
(`none` is the `NaN` sentinel), raw marketplace text (`astype(str)` form). -/
structure NRecord where
  company : String
  funding : Option ℚ
  marketplace : String
deriving DecidableEq

/-- A company aggregate row: name, max funding, "Yes"/"No" flag. -/
abbrev Agg := String × ℚ × String

/-- `col.astype(str).str.lower() == "yes"` on one cell. -/
def isYes (s : String) : Bool := lowerStr s == "yes"

/-- `dropna(subset=["Company", "FundingUSD"])`: after `astype(str)` the
Company column holds no `NaN`, so only the funding sentinel filters rows. -/
def validOf (rs : List NRecord) : List Agg :=
  rs.filterMap (fun r => r.funding.map (fun q => (r.company, q, r.marketplace)))

/-- The rows of one `groupby("Company")` group. -/
def groupOf (recs : List Agg) (k : String) : List Agg :=
  recs.filter (fun r => r.1 == k)

/-- Maximum of a list of rationals, `none` on the empty list (pandas `max`
aggregation over a group). -/
def qmax : List ℚ → Option ℚ
  | [] => none
  | q :: l =>
    match qmax l with
    | none => some q
    | some m => some (max q m)

/-- The aggregate of one group: `FundingUSD = max`, `UsingCloud = "Yes"` iff
some row's marketplace text lowercases to `"yes"`. The `getD 0` fallback is
never reached for a key of a nonempty group. -/
def aggOf (recs : List Agg) (k : String) : ℚ × String :=
  ((qmax ((groupOf recs k).map (fun r => r.2.1))).getD 0,
   if (groupOf recs k).any (fun r => isYes r.2.2) then "Yes" else "No")

/-- `groupby` with default `sort=True`: the distinct keys in ascending order. -/
def sortedKeys (recs : List Agg) : List String :=
  ((recs.map (fun r => r.1)).dedup).insertionSort (fun a b => a ≤ b)

/-- The aggregate table produced by `groupby(...).agg(...)`. -/
def aggregates (recs : List Agg) : List Agg :=
  (sortedKeys recs).map (fun k => (k, aggOf recs k))

/-- `sort_values("FundingUSD", ascending=False)` comparison. -/
def descFund (a b : Agg) : Prop := b.2.1 ≤ a.2.1

instance : DecidableRel descFund := fun a b => inferInstanceAs (Decidable (_ ≤ _))

instance : IsTotal Agg descFund := ⟨fun a b => le_total b.2.1 a.2.1⟩

instance : IsTrans Agg descFund := ⟨fun _ _ _ h1 h2 => le_trans h2 h1⟩

/-- All aggregates sorted by funding descending (before `head`). -/
def rankAll (recs : List Agg) : List Agg := (aggregates recs).insertionSort descFund

/-- `DataFrame.head(n)`: first `n` rows for `n ≥ 0`, all but the last `|n|`
rows for `n < 0`. -/
def pdHead (n : ℤ) (l : List α) : List α :=
  if 0 ≤ n then l.take n.toNat else l.take (l.length - (-n).toNat)

/-- The grouping/sorting/truncating step on normalized records. -/
def rank (rs : List NRecord) (n : ℤ) : List Agg := pdHead n (rankAll (validOf rs))

/-- Failures `top_funded_companies` can raise from the modelled region:
the `KeyError` for missing columns and the `ValueError` escaping
`_parse_funding`. -/
inductive PipeError
  | missingCols (cols : List String)
  | valueError
deriving DecidableEq

/-- `df["Company"].astype(str).str.strip().str.title()` on one cell. -/
def normCompany (cell : Option String) : String := pyTitle (pyStrip (cellStr cell))

/-- Lines 99-100 applied to one row. -/
def normRow (r : Row) : Except PipeError NRecord :=
  match parseFunding r.funding with
  | .error _ => .error .valueError
  | .ok v => .ok ⟨normCompany r.company, v, cellStr r.marketplace⟩

/-- Lines 99-100 applied to the whole frame (`Series.apply` raises at the
first failing cell). -/
def normRows : List Row → Except PipeError (List NRecord)
  | [] => .ok []
  | r :: rest =>
    match normRow r with
    | .error e => .error e
    | .ok nr =>
      match normRows rest with
      | .error e => .error e
      | .ok l => .ok (nr :: l)

/-- The in-memory dataset handed to the core by the loading collaborator. -/
structure Table where
  headers : List String
  rows : List Row

/-- The `required` set of column names. -/
def requiredCols : List String :=
  ["Company", "Recent Funding Amount", "Using cloud marketplaces?"]

/-- `sorted(required - set(df.columns))` after the header-trimming rename. -/
def missedCols (headers : List String) : List String :=
  (requiredCols.filter (fun c => !((headers.map pyStrip).contains c))).insertionSort
    (fun a b => a ≤ b)

/-- The message text of each failure. -/
def errMessage : PipeError → String
  | .missingCols cols => "Missing required column(s): " ++ String.intercalate ", " cols
  | .valueError => "could not convert string to float"

/-- `top_funded_companies` from the loaded table to the ranked aggregates. -/
def topFundedCompanies (t : Table) (topN : ℤ) : Except PipeError (List Agg) :=
  if (missedCols t.headers).isEmpty then
    match normRows t.rows with
    | .error e => .error e
    | .ok nrecs => .ok (rank nrecs topN)
  else .error (.missingCols (missedCols t.headers))

/-! ### Character lemmas -/

theorem char_toNat_ofNat {n : ℕ} (h : n < 55296) : (Char.ofNat n).toNat = n := by
  have hv : n.isValidChar := Or.inl h
  rw [Char.ofNat, dif_pos hv]
  simp [Char.ofNatAux, Char.toNat, UInt32.toNat]

theorem char_toNat_inj {c d : Char} (h : c.toNat = d.toNat) : c = d := by
  have h2 := congrArg Char.ofNat h
  rwa [Char.ofNat_toNat, Char.ofNat_toNat] at h2

theorem upperChar_iff {c : Char} : upperChar c = true ↔ 65 ≤ c.toNat ∧ c.toNat ≤ 90 := by
  simp [upperChar]

theorem lowerAlpha_iff {c : Char} : lowerAlpha c = true ↔ 97 ≤ c.toNat ∧ c.toNat ≤ 122 := by
  simp [lowerAlpha]

theorem lowerAlpha_toNat {c : Char} (h : lowerAlpha c = true) : c.toNat ≤ 122 :=
  (lowerAlpha_iff.mp h).2

/-- Two characters with the same lowercasing have the same uppercasing. -/
theorem upChar_congr {c d : Char} (h : lowChar c = lowChar d) : upChar c = upChar d := by
  by_cases hc : upperChar c = true <;> by_cases hd : upperChar d = true
  · rw [lowChar, if_pos hc, lowChar, if_pos hd] at h
    have hcn := upperChar_iff.mp hc
    have hdn := upperChar_iff.mp hd
    have h2 := congrArg Char.toNat h
    rw [char_toNat_ofNat (by omega), char_toNat_ofNat (by omega)] at h2
    have : c = d := char_toNat_inj (by omega)
    rw [this]
  · rw [lowChar, if_pos hc, lowChar, if_neg hd] at h
    have hcn := upperChar_iff.mp hc
    have h2 := congrArg Char.toNat h
    rw [char_toNat_ofNat (by omega)] at h2
    have hcl : lowerAlpha c = false := by
      rcases Bool.eq_false_or_eq_true (lowerAlpha c) with hb | hb
      · have := lowerAlpha_iff.mp hb; omega
      · exact hb
    have hdl : lowerAlpha d = true := lowerAlpha_iff.mpr (by omega)
    rw [upChar, if_neg (by simp [hcl]), upChar, if_pos hdl]
    refine (char_toNat_inj ?_).symm
    rw [char_toNat_ofNat (by omega)]
    omega
  · rw [lowChar, if_neg hc, lowChar, if_pos hd] at h
    have hdn := upperChar_iff.mp hd
    have h2 := congrArg Char.toNat h
    rw [char_toNat_ofNat (by omega)] at h2
    have hdl : lowerAlpha d = false := by
      rcases Bool.eq_false_or_eq_true (lowerAlpha d) with hb | hb
      · have := lowerAlpha_iff.mp hb; omega
      · exact hb
    have hcl : lowerAlpha c = true := lowerAlpha_iff.mpr (by omega)
    rw [upChar, if_pos hcl, upChar, if_neg (by simp [hdl])]
    refine char_toNat_inj ?_
    rw [char_toNat_ofNat (by omega)]
    omega
  · rw [lowChar, if_neg hc, lowChar, if_neg hd] at h
    rw [h]

/-- Two characters with the same lowercasing are both cased or both uncased. -/
theorem casedChar_congr {c d : Char} (h : lowChar c = lowChar d) :
    casedChar c = casedChar d := by
  by_cases hc : upperChar c = true <;> by_cases hd : upperChar d = true
  · simp [casedChar, hc, hd]
  · rw [lowChar, if_pos hc, lowChar, if_neg hd] at h
    have hcn := upperChar_iff.mp hc
    have h2 := congrArg Char.toNat h
    rw [char_toNat_ofNat (by omega)] at h2
    have hdl : lowerAlpha d = true := lowerAlpha_iff.mpr (by omega)
    simp [casedChar, hc, hdl]
  · rw [lowChar, if_neg hc, lowChar, if_pos hd] at h
    have hdn := upperChar_iff.mp hd
    have h2 := congrArg Char.toNat h
    rw [char_toNat_ofNat (by omega)] at h2
    have hcl : lowerAlpha c = true := lowerAlpha_iff.mpr (by omega)
    simp [casedChar, hcl, hd]
  · rw [lowChar, if_neg hc, lowChar, if_neg hd] at h
    rw [h]

/-- Title-casing only looks at characters up to case. -/
theorem titleAux_congr {l₁ l₂ : List Char}
    (h : List.Forall₂ (fun c d => lowChar c = lowChar d) l₁ l₂) :
    ∀ b, titleAux l₁ b = titleAux l₂ b := by
  induction h with
  | nil => intro b; rfl
  | cons hcd _ ih =>
    intro b
    simp only [titleAux]
    rw [casedChar_congr hcd, ih]
    cases b <;> simp [upChar_congr hcd, hcd]

/-! ### Regex decomposition lemmas -/

theorem tw_eq_nil {p : Char → Bool} {x : List Char}
    (h : ∀ c, x.head? = some c → p c = false) : x.takeWhile p = [] := by
  cases x with
  | nil => rfl
  | cons a t => simp [List.takeWhile_cons, h a rfl]

theorem dw_eq_self {p : Char → Bool} {x : List Char}
    (h : ∀ c, x.head? = some c → p c = false) : x.dropWhile p = x := by
  cases x with
  | nil => rfl
  | cons a t => simp [List.dropWhile_cons, h a rfl]

theorem wsChar_not_num {c : Char} (h : wsChar c = true) : isNumChar c = false := by
  simp only [wsChar, Bool.or_eq_true, beq_iff_eq] at h
  rcases h with ((rfl | rfl) | rfl) | rfl <;> rfl

theorem suffChar_not_num {c : Char} (h : suffChar c = true) : isNumChar c = false := by
  simp only [suffChar, Bool.or_eq_true, beq_iff_eq] at h
  rcases h with ((((rfl | rfl) | rfl) | rfl) | rfl) | rfl <;> rfl

theorem suffChar_not_ws {c : Char} (h : suffChar c = true) : wsChar c = false := by
  simp only [suffChar, Bool.or_eq_true, beq_iff_eq] at h
  rcases h with ((((rfl | rfl) | rfl) | rfl) | rfl) | rfl <;> rfl

/-- The regex accepts exactly the well-formed decompositions: a nonempty
`[\d.]+` run, blanks, then an empty or single-letter suffix. -/
theorem fundingMatch_decomp {num w suf : List Char} (hnum : num ≠ [])
    (hall : num.all isNumChar = true) (hw : w.all wsChar = true)
    (hsuf : suf = [] ∨ ∃ c, suf = [c] ∧ suffChar c = true) :
    fundingMatch (num ++ w ++ suf) = some (num, suf.head?) := by
  have hmemnum : ∀ a ∈ num, isNumChar a := fun a ha => List.all_eq_true.mp hall a ha
  have hmemw : ∀ a ∈ w, wsChar a := fun a ha => List.all_eq_true.mp hw a ha
  have hheadws : ∀ c : Char, (w ++ suf).head? = some c → isNumChar c = false := by
    intro c hc
    cases w with
    | nil =>
      rcases hsuf with rfl | ⟨a, rfl, ha⟩
      · simp at hc
      · simp at hc
        rw [← hc]; exact suffChar_not_num ha
    | cons b t =>
      simp at hc
      rw [← hc]; exact wsChar_not_num (hmemw b (by simp))
  have hheadsuf : ∀ c : Char, suf.head? = some c → wsChar c = false := by
    intro c hc
    rcases hsuf with rfl | ⟨a, rfl, ha⟩
    · simp at hc
    · simp at hc
      rw [← hc]; exact suffChar_not_ws ha
  have h1 : (num ++ w ++ suf).takeWhile isNumChar = num := by
    rw [List.append_assoc, List.takeWhile_append_of_pos hmemnum, tw_eq_nil hheadws,
      List.append_nil]
  have h2 : (num ++ w ++ suf).dropWhile isNumChar = w ++ suf := by
    rw [List.append_assoc, List.dropWhile_append_of_pos hmemnum, dw_eq_self hheadws]
  have h3 : (w ++ suf).dropWhile wsChar = suf := by
    rw [List.dropWhile_append_of_pos hmemw, dw_eq_self hheadsuf]
  have hne : num.isEmpty = false := by
    cases num with
    | nil => exact absurd rfl hnum
    | cons a t => rfl
  simp only [fundingMatch, h1, h2, h3, hne, Bool.false_eq_true, if_false]
  rcases hsuf with rfl | ⟨c, rfl, hc⟩
  · rfl
  · simp [hc]

/-- Evaluation helper for `decVal`. -/
theorem decVal_eval (l a b : List Char) (h1 : intDigits l = a) (h2 : fracDigits l = b) :
    decVal l = (natOf a : ℚ) + (natOf b : ℚ) / 10 ^ b.length := by
  rw [decVal, h1, h2]

/-! ### Concrete parses (shared evaluation lemmas) -/

theorem parse_25M : parseFunding (some "$2.5M") = .ok (some 2500000) := by
  have h : parseFunding (some "$2.5M") =
      .ok (some (decVal ['2', '.', '5'] * suffMult (some 'M'))) := rfl
  rw [h, decVal_eval ['2', '.', '5'] ['2'] ['5'] rfl rfl,
    show natOf ['2'] = 2 from rfl, show natOf ['5'] = 5 from rfl,
    show suffMult (some 'M') = (1000000 : ℚ) from rfl]
  norm_num

theorem parse_750K : parseFunding (some "750 K") = .ok (some 750000) := by
  have h : parseFunding (some "750 K") =
      .ok (some (decVal ['7', '5', '0'] * suffMult (some 'K'))) := rfl
  rw [h, decVal_eval ['7', '5', '0'] ['7', '5', '0'] [] rfl rfl,
    show natOf ['7', '5', '0'] = 750 from rfl, show natOf [] = 0 from rfl,
    show suffMult (some 'K') = (1000 : ℚ) from rfl]
  norm_num

theorem parse_12b : parseFunding (some "1.2b") = .ok (some 1200000000) := by
  have h : parseFunding (some "1.2b") =
      .ok (some (decVal ['1', '.', '2'] * suffMult (some 'b'))) := rfl
  rw [h, decVal_eval ['1', '.', '2'] ['1'] ['2'] rfl rfl,
    show natOf ['1'] = 1 from rfl, show natOf ['2'] = 2 from rfl,
    show suffMult (some 'b') = (1000000000 : ℚ) from rfl]
  norm_num

/-! ### `_human_funding` evaluation helpers -/

theorem rhe_intCast (z : ℤ) : rhe (z : ℚ) = z := by
  rw [rhe, Int.floor_intCast, if_pos (by rw [sub_self]; norm_num)]

theorem human_125M : humanFunding (some 12500000) = "$12.5M" := by
  simp only [humanFunding]
  rw [if_neg (by norm_num), if_pos (by norm_num), fmtFixed1,
    show (12500000 : ℚ) / 1000000 * 10 = ((125 : ℤ) : ℚ) from by norm_num, rhe_intCast]
  decide

theorem human_750K : humanFunding (some 750000) = "$750K" := by
  simp only [humanFunding]
  rw [if_neg (by norm_num), if_neg (by norm_num), if_pos (by norm_num), fmtFixed0,
    show (750000 : ℚ) / 1000 = ((750 : ℤ) : ℚ) from by norm_num, rhe_intCast]
  decide

/-! ### Claims C1, C4, C5 -/

/-- Claim C1, code-bug exhibit. The claim says every malformed cleaned text,
multiple decimal points included, yields the unparseable sentinel and never
raises. On `"1.2.3"` the regex `([\d.]+)\s*([KMB])?` matches in full (the
class `[\d.]` places no bound on dots), and then `float("1.2.3")` raises
`ValueError` — the code raises instead of returning `NaN`, contradicting the
docstring "Returns NaN if parsing fails.". -/
theorem c1_multidot_raises : parseFunding (some "1.2.3") = .error () := rfl

/-- Claim C4: a cleaned text that is a number (digits, at most one dot, at
least one digit) followed by optional blanks and an optional single
case-insensitive K/M/B suffix parses to the number times 1000 / 10^6 / 10^9,
or times 1 with no suffix (so an already-numeric text is returned
unchanged); and the concrete examples from the spec. -/
theorem c4_parse_wellformed :
    (∀ (s : String) (num w suf : List Char),
        cleanedOf s = num ++ w ++ suf → num ≠ [] → num.all isNumChar = true →
        num.count '.' ≤ 1 → num.any digitChar = true → w.all wsChar = true →
        (suf = [] ∨ ∃ c, suf = [c] ∧ suffChar c = true) →
        parseFunding (some s) = .ok (some (decVal num * suffMult suf.head?))) ∧
    parseFunding (some "$2.5M") = .ok (some 2500000) ∧
    parseFunding (some "750 K") = .ok (some 750000) ∧
    parseFunding (some "1.2b") = .ok (some 1200000000) ∧
    parseFunding (some "") = .ok none ∧
    parseFunding (some "abc") = .ok none ∧
    parseFunding none = .ok none := by
  refine ⟨?_, parse_25M, parse_750K, parse_12b, rfl, rfl, rfl⟩
  intro s num w suf hdec hnum hall hcount hany hw hsuf
  have hok : floatOk num = true := by
    simp [floatOk, hall, hany, hcount]
  simp only [parseFunding, hdec, fundingMatch_decomp hnum hall hw hsuf, hok, if_true]

/-- Claim C4 witness: the general clause instantiated at `"$2.5M"` with
`num = "2.5"`, `w = ""`, `suf = "M"`. -/
theorem c4_parse_wellformed_witness :
    cleanedOf "$2.5M" = ['2', '.', '5'] ++ [] ++ ['M'] ∧
    (['2', '.', '5'] : List Char) ≠ [] ∧
    (['2', '.', '5'] : List Char).all isNumChar = true ∧
    (['2', '.', '5'] : List Char).count '.' ≤ 1 ∧
    (['2', '.', '5'] : List Char).any digitChar = true ∧
    ([] : List Char).all wsChar = true ∧
    parseFunding (some "$2.5M") =
      .ok (some (decVal ['2', '.', '5'] * suffMult (['M'] : List Char).head?)) := by
  refine ⟨by decide, by decide, by decide, by decide, by decide, by decide, ?_⟩
  exact c4_parse_wellformed.1 "$2.5M" ['2', '.', '5'] [] ['M'] (by decide) (by decide)
    (by decide) (by decide) (by decide) (by decide) (Or.inr ⟨'M', rfl, by decide⟩)

/-- Claim C5: the formatter renders the sentinel as the empty string, always
produces a string starting with `$` on numbers, uses the `$X.XB` / `$X.XM` /
`$XK` / grouped-`$X` shapes on the corresponding ranges, and
`format(12500000) = "$12.5M"`, `format(750000) = "$750K"`. -/
theorem c5_humanFunding :
    humanFunding none = "" ∧
    (∀ q : ℚ, 0 ≤ q → ∃ r, humanFunding (some q) = "$" ++ r) ∧
    (∀ q : ℚ, (1000000000 : ℚ) ≤ q →
      humanFunding (some q) = "$" ++ fmtFixed1 (q / 1000000000) ++ "B") ∧
    (∀ q : ℚ, q < 1000000000 → (1000000 : ℚ) ≤ q →
      humanFunding (some q) = "$" ++ fmtFixed1 (q / 1000000) ++ "M") ∧
    (∀ q : ℚ, q < 1000000 → (1000 : ℚ) ≤ q →
      humanFunding (some q) = "$" ++ fmtFixed0 (q / 1000) ++ "K") ∧
    (∀ q : ℚ, q < 1000 → humanFunding (some q) = "$" ++ fmtGrouped q) ∧
    humanFunding (some 12500000) = "$12.5M" ∧
    humanFunding (some 750000) = "$750K" := by
  refine ⟨rfl, ?_, ?_, ?_, ?_, ?_, human_125M, human_750K⟩
  · intro q _
    simp only [humanFunding]
    split_ifs <;> exact ⟨_, rfl⟩
  · intro q h
    simp only [humanFunding]
    rw [if_pos h]
  · intro q h1 h2
    simp only [humanFunding]
    rw [if_neg (not_le.mpr h1), if_pos h2]
  · intro q h1 h2
    simp only [humanFunding]
    rw [if_neg (not_le.mpr (h1.trans_le (by norm_num))), if_neg (not_le.mpr h1), if_pos h2]
  · intro q h1
    simp only [humanFunding]
    rw [if_neg (not_le.mpr (h1.trans_le (by norm_num))),
      if_neg (not_le.mpr (h1.trans_le (by norm_num))), if_neg (not_le.mpr h1)]

/-- Claim C5 witness: the quantified clauses instantiated at concrete
amounts in each range. -/
theorem c5_humanFunding_witness :
    ((0 : ℚ) ≤ 7 ∧ ∃ r, humanFunding (some 7) = "$" ++ r) ∧
    ((1000000000 : ℚ) ≤ 2000000000 ∧
      humanFunding (some 2000000000) = "$" ++ fmtFixed1 ((2000000000 : ℚ) / 1000000000) ++ "B") ∧
    ((12500000 : ℚ) < 1000000000 ∧ (1000000 : ℚ) ≤ 12500000 ∧
      humanFunding (some 12500000) = "$" ++ fmtFixed1 ((12500000 : ℚ) / 1000000) ++ "M") ∧
    ((750000 : ℚ) < 1000000 ∧ (1000 : ℚ) ≤ 750000 ∧
      humanFunding (some 750000) = "$" ++ fmtFixed0 ((750000 : ℚ) / 1000) ++ "K") ∧
    ((7 : ℚ) < 1000 ∧ humanFunding (some 7) = "$" ++ fmtGrouped 7) :=
  ⟨⟨by norm_num, c5_humanFunding.2.1 7 (by norm_num)⟩,
   ⟨by norm_num, c5_humanFunding.2.2.1 2000000000 (by norm_num)⟩,
   ⟨by norm_num, by norm_num, c5_humanFunding.2.2.2.1 12500000 (by norm_num) (by norm_num)⟩,
   ⟨by norm_num, by norm_num, c5_humanFunding.2.2.2.2.1 750000 (by norm_num) (by norm_num)⟩,
   ⟨by norm_num, c5_humanFunding.2.2.2.2.2.1 7 (by norm_num)⟩⟩

/-! ### Aggregation lemmas -/

theorem qmax_perm {l₁ l₂ : List ℚ} (h : List.Perm l₁ l₂) : qmax l₁ = qmax l₂ := by
  induction h with
  | nil => rfl
  | cons x _ ih => simp only [qmax, ih]
  | swap x y l =>
    simp only [qmax]
    cases hql : qmax l
    · simp [max_comm]
    · simp only []
      rw [max_left_comm]
  | trans _ _ ih1 ih2 => exact ih1.trans ih2

theorem any_perm {α : Type} {l₁ l₂ : List α} (p : α → Bool) (h : List.Perm l₁ l₂) :
    l₁.any p = l₂.any p := by
  cases hb : l₂.any p
  · rw [List.any_eq_false] at hb ⊢
    intro a ha
    exact hb a (h.mem_iff.mp ha)
  · rw [List.any_eq_true] at hb ⊢
    obtain ⟨a, ha, hp⟩ := hb
    exact ⟨a, h.mem_iff.mpr ha, hp⟩

theorem qmax_isSome {l : List ℚ} (h : l ≠ []) : ∃ m, qmax l = some m := by
  cases l with
  | nil => exact absurd rfl h
  | cons q t => cases hqt : qmax t <;> simp [qmax, hqt]

theorem qmax_mem : ∀ {l : List ℚ} {m : ℚ}, qmax l = some m → m ∈ l := by
  intro l
  induction l with
  | nil => intro m h; simp [qmax] at h
  | cons q t ih =>
    intro m h
    simp only [qmax] at h
    cases hqt : qmax t with
    | none =>
      rw [hqt] at h
      simp only [Option.some.injEq] at h
      simp [← h]
    | some k =>
      rw [hqt] at h
      simp only [Option.some.injEq] at h
      rcases max_choice q k with hc | hc
      · simp [← h, hc]
      · have : m = k := by rw [← h, hc]
        simp [this, ih hqt]

theorem qmax_le : ∀ {l : List ℚ} {m : ℚ}, qmax l = some m → ∀ x ∈ l, x ≤ m := by
  intro l
  induction l with
  | nil => intro m _ x hx; simp at hx
  | cons q t ih =>
    intro m h x hx
    simp only [qmax] at h
    cases hqt : qmax t with
    | none =>
      have ht : t = [] := by
        cases t with
        | nil => rfl
        | cons a u => cases hqu : qmax u <;> simp [qmax, hqu] at hqt
      rw [hqt] at h
      simp only [Option.some.injEq] at h
      subst ht
      simp at hx
      simp [hx, ← h]
    | some k =>
      rw [hqt] at h
      simp only [Option.some.injEq] at h
      rcases List.mem_cons.mp hx with rfl | hxt
      · rw [← h]; exact le_max_left _ _
      · calc x ≤ k := ih hqt x hxt
          _ ≤ m := by rw [← h]; exact le_max_right _ _

theorem pdHead_nil (n : ℤ) : pdHead n ([] : List α) = [] := by
  unfold pdHead
  split_ifs <;> simp

/-! ### Claims C7, C8, C10 -/

/-- Claim C7: the rank step is a total function; on an empty record sequence
(or one whose rows were all filtered out) it returns the empty result, with
`top_n` at least the number of aggregates it returns the whole aggregate
table, and its output is always sorted descending by funding. -/
theorem c7_rank_total :
    (∀ n : ℤ, rank [] n = []) ∧
    (∀ (rs : List NRecord) (n : ℤ), validOf rs = [] → rank rs n = []) ∧
    (∀ (rs : List NRecord) (n : ℤ), ((rankAll (validOf rs)).length : ℤ) ≤ n →
      rank rs n = rankAll (validOf rs)) ∧
    (∀ (rs : List NRecord) (n : ℤ), List.Sorted descFund (rank rs n)) := by
  have hnil : ∀ n : ℤ, pdHead n (rankAll []) = [] := fun n => by
    rw [show rankAll [] = [] from rfl, pdHead_nil]
  refine ⟨fun n => hnil n, ?_, ?_, ?_⟩
  · intro rs n h
    rw [rank, h]
    exact hnil n
  · intro rs n h
    have h0 : (0 : ℤ) ≤ n := le_trans (Int.natCast_nonneg _) h
    rw [rank, pdHead, if_pos h0]
    exact List.take_of_length_le (by omega)
  · intro rs n
    have hs : List.Sorted descFund (rankAll (validOf rs)) := List.sorted_insertionSort _ _
    rw [rank, pdHead]
    split_ifs <;> exact List.Pairwise.sublist (List.take_sublist _ _) hs

/-- Claim C7 witness: empty input, an all-filtered input, and a `top_n`
larger than the aggregate count. -/
theorem c7_rank_total_witness :
    rank [] 5 = [] ∧
    (validOf [⟨"A", (none : Option ℚ), "x"⟩] = [] ∧ rank [⟨"A", none, "x"⟩] 3 = []) ∧
    (((rankAll (validOf [⟨"A", some 2, "yes"⟩])).length : ℤ) ≤ 7 ∧
      rank [⟨"A", some 2, "yes"⟩] 7 = rankAll (validOf [⟨"A", some 2, "yes"⟩])) ∧
    List.Sorted descFund (rank [⟨"A", some 2, "yes"⟩] 1) :=
  ⟨c7_rank_total.1 5,
   ⟨rfl, c7_rank_total.2.1 _ 3 rfl⟩,
   ⟨by norm_num [rankAll, aggregates, sortedKeys, validOf, List.insertionSort],
    c7_rank_total.2.2.1 _ 7
      (by norm_num [rankAll, aggregates, sortedKeys, validOf, List.insertionSort])⟩,
   c7_rank_total.2.2.2 _ 1⟩

/-- Claim C8: aggregation is invariant under any permutation of the record
sequence — the aggregate table (company to max funding and flag) is equal,
not merely permuted. -/
theorem c8_perm_invariant :
    ∀ (rs₁ rs₂ : List NRecord), List.Perm rs₁ rs₂ →
      aggregates (validOf rs₁) = aggregates (validOf rs₂) := by
  intro rs₁ rs₂ h
  have hv : List.Perm (validOf rs₁) (validOf rs₂) := h.filterMap _
  have hkeys : sortedKeys (validOf rs₁) = sortedKeys (validOf rs₂) := by
    apply List.eq_of_perm_of_sorted
      (((List.perm_insertionSort _ _).trans ((hv.map _).dedup)).trans
        (List.perm_insertionSort _ _).symm)
      (List.sorted_insertionSort _ _) (List.sorted_insertionSort _ _)
  have haggOf : ∀ k, aggOf (validOf rs₁) k = aggOf (validOf rs₂) k := by
    intro k
    have hg : List.Perm (groupOf (validOf rs₁) k) (groupOf (validOf rs₂) k) := hv.filter _
    rw [aggOf, aggOf, qmax_perm (hg.map _), any_perm _ hg]
  rw [aggregates, aggregates, hkeys]
  exact List.map_congr_left fun k _ => by rw [haggOf k]

/-- Claim C8 witness: swapping two concrete records leaves the aggregate
table unchanged. -/
theorem c8_perm_invariant_witness :
    List.Perm [(⟨"A", some 1, "yes"⟩ : NRecord), ⟨"B", some 2, "no"⟩]
      [⟨"B", some 2, "no"⟩, ⟨"A", some 1, "yes"⟩] ∧
    aggregates (validOf [(⟨"A", some 1, "yes"⟩ : NRecord), ⟨"B", some 2, "no"⟩]) =
      aggregates (validOf [⟨"B", some 2, "no"⟩, ⟨"A", some 1, "yes"⟩]) :=
  ⟨List.Perm.swap _ _ [],
   c8_perm_invariant _ _ (List.Perm.swap _ _ [])⟩

/-- Claim C10: `head` semantics at non-positive `top_n`: zero returns the
empty result, a negative value returns the descending order minus its last
`|top_n|` aggregates; both are total. -/
theorem c10_head_nonpositive :
    (∀ rs : List NRecord, rank rs 0 = []) ∧
    (∀ (rs : List NRecord) (k : ℕ),
      rank rs (-((k : ℤ) + 1)) =
        (rankAll (validOf rs)).take ((rankAll (validOf rs)).length - (k + 1))) := by
  constructor
  · intro rs
    rw [rank, pdHead, if_pos (by norm_num)]
    simp
  · intro rs k
    rw [rank, pdHead, if_neg (by omega)]
    congr 1

/-! ### Claim C3 -/

/-- Two strings differing only in letter case, character by character. -/
def caseEq (s t : String) : Prop :=
  List.Forall₂ (fun c d => lowChar c = lowChar d) s.data t.data

/-- Claim C3: company strings equal up to surrounding whitespace and letter
case normalize to the same grouping key; the aggregate table has one row per
distinct key, every filtered record's key is represented, and each aggregate
carries the maximum funding of its group and the "Yes"/"No" any-yes flag. -/
theorem c3_grouping :
    (∀ s t : String, caseEq (pyStrip s) (pyStrip t) →
      pyTitle (pyStrip s) = pyTitle (pyStrip t)) ∧
    (∀ rs : List NRecord,
      ((aggregates (validOf rs)).map (fun a => a.1)).Nodup ∧
      (∀ r ∈ validOf rs, ∃ a ∈ aggregates (validOf rs), a.1 = r.1) ∧
      (∀ a ∈ aggregates (validOf rs),
        (a.2.1 ∈ (groupOf (validOf rs) a.1).map (fun r => r.2.1) ∧
          ∀ q ∈ (groupOf (validOf rs) a.1).map (fun r => r.2.1), q ≤ a.2.1) ∧
        ((a.2.2 = "Yes" ∨ a.2.2 = "No") ∧
          (a.2.2 = "Yes" ↔ ∃ r ∈ groupOf (validOf rs) a.1, lowerStr r.2.2 = "yes")))) := by
  constructor
  · intro s t h
    exact congrArg String.mk (titleAux_congr h false)
  · intro rs
    have hmapaux : ∀ ks : List String,
        (ks.map (fun k => (k, aggOf (validOf rs) k))).map (fun a => a.1) = ks := by
      intro ks
      induction ks with
      | nil => rfl
      | cons a t ih => simp [ih]
    have hmapfst : (aggregates (validOf rs)).map (fun a => a.1) = sortedKeys (validOf rs) := by
      rw [aggregates, hmapaux]
    refine ⟨?_, ?_, ?_⟩
    · rw [hmapfst, sortedKeys]
      exact (List.perm_insertionSort _ _).nodup_iff.mpr (List.nodup_dedup _)
    · intro r hr
      have hk : r.1 ∈ sortedKeys (validOf rs) := by
        rw [sortedKeys]
        exact (List.perm_insertionSort _ _).mem_iff.mpr
          (List.mem_dedup.mpr (List.mem_map_of_mem _ hr))
      exact ⟨(r.1, aggOf (validOf rs) r.1), List.mem_map_of_mem _ hk, rfl⟩
    · intro a ha
      rw [aggregates] at ha
      obtain ⟨k, hk, rfl⟩ := List.mem_map.mp ha
      have hkV : k ∈ (validOf rs).map (fun r => r.1) := by
        rw [sortedKeys] at hk
        exact List.mem_dedup.mp ((List.perm_insertionSort _ _).mem_iff.mp hk)
      obtain ⟨r0, hr0, hr0k⟩ := List.mem_map.mp hkV
      have hr0g : r0 ∈ groupOf (validOf rs) k :=
        List.mem_filter.mpr ⟨hr0, beq_iff_eq.mpr hr0k⟩
      have hgne : (groupOf (validOf rs) k).map (fun r => r.2.1) ≠ [] :=
        List.ne_nil_of_mem (List.mem_map_of_mem _ hr0g)
      obtain ⟨m, hm⟩ := qmax_isSome hgne
      have hfst : (k, aggOf (validOf rs) k).2.1 = m := by
        simp [aggOf, hm]
      constructor
      · constructor
        · rw [hfst]
          exact qmax_mem hm
        · intro q hq
          rw [hfst]
          exact qmax_le hm q hq
      · have hflag : (k, aggOf (validOf rs) k).2.2 =
            if (groupOf (validOf rs) k).any (fun r => isYes r.2.2) then "Yes" else "No" := rfl
        cases hany : (groupOf (validOf rs) k).any (fun r => isYes r.2.2) with
        | false =>
          rw [hflag, hany, if_neg (by simp)]
          refine ⟨Or.inr rfl, ?_⟩
          rw [List.any_eq_false] at hany
          constructor
          · intro hcontra
            exact absurd hcontra (by decide)
          · rintro ⟨r, hrg, hry⟩
            exact absurd (beq_iff_eq.mpr hry) (by simpa [isYes] using hany r hrg)
        | true =>
          rw [hflag, hany, if_pos rfl]
          refine ⟨Or.inl rfl, ?_⟩
          rw [List.any_eq_true] at hany
          obtain ⟨r, hrg, hry⟩ := hany
          exact ⟨fun _ => ⟨r, hrg, beq_iff_eq.mp (by simpa [isYes] using hry)⟩, fun _ => rfl⟩

/-- Claim C3 witness: two raw company strings differing only in case and
surrounding whitespace normalize identically, and the aggregate-shape clause
instantiated on a concrete record list. -/
theorem c3_grouping_witness :
    caseEq (pyStrip " acme INC") (pyStrip "Acme inc ") ∧
    pyTitle (pyStrip " acme INC") = pyTitle (pyStrip "Acme inc ") ∧
    ((aggregates (validOf [⟨"Acme Inc", some 5, "yes"⟩])).map (fun a => a.1)).Nodup := by
  have h : caseEq (pyStrip " acme INC") (pyStrip "Acme inc ") := by
    show List.Forall₂ (fun c d => lowChar c = lowChar d)
      (pyStrip " acme INC").data (pyStrip "Acme inc ").data
    decide
  exact ⟨h, c3_grouping.1 _ _ h, (c3_grouping.2 [⟨"Acme Inc", some 5, "yes"⟩]).1⟩

/-! ### Claim C6 -/

theorem str_contains_iff (l : List String) (c : String) : l.contains c = true ↔ c ∈ l :=
  List.elem_iff

theorem mem_missedCols {headers : List String} {c : String} :
    c ∈ missedCols headers ↔ c ∈ requiredCols ∧ c ∉ headers.map pyStrip := by
  rw [missedCols, (List.perm_insertionSort _ _).mem_iff, List.mem_filter]
  constructor
  · rintro ⟨h1, h2⟩
    rw [Bool.not_eq_true'] at h2
    refine ⟨h1, fun hm => ?_⟩
    rw [(str_contains_iff _ _).mpr hm] at h2
    cases h2
  · rintro ⟨h1, h2⟩
    refine ⟨h1, ?_⟩
    rw [Bool.not_eq_true']
    cases hb : (headers.map pyStrip).contains c
    · rfl
    · exact absurd ((str_contains_iff _ _).mp hb) h2

/-- Claim C6: when a required column is absent from the trimmed headers the
run fails with the missing-column error whose column list holds exactly the
absent required columns (in sorted order, joined into the message by
`errMessage`), and the failure does not depend on the rows or on `top_n` —
no row is processed. -/
theorem c6_missing_columns :
    ∀ (t : Table) (n : ℤ),
      (∃ c ∈ requiredCols, c ∉ t.headers.map pyStrip) →
      topFundedCompanies t n = .error (.missingCols (missedCols t.headers)) ∧
      (∀ c, c ∈ missedCols t.headers ↔ (c ∈ requiredCols ∧ c ∉ t.headers.map pyStrip)) ∧
      (∀ (rows2 : List Row) (n2 : ℤ),
        topFundedCompanies ⟨t.headers, rows2⟩ n2 =
          .error (.missingCols (missedCols t.headers))) := by
  rintro t n ⟨c, hc, hcm⟩
  have hmem : c ∈ missedCols t.headers := mem_missedCols.mpr ⟨hc, hcm⟩
  have hie : ¬(missedCols t.headers).isEmpty = true := by
    rw [List.isEmpty_iff]
    exact List.ne_nil_of_mem hmem
  exact ⟨by rw [topFundedCompanies, if_neg hie], fun _ => mem_missedCols,
    fun rows2 n2 => by rw [topFundedCompanies, if_neg hie]⟩

/-- Claim C6 witness: a table lacking the `Company` column fails with the
missing-column error independently of its (empty) row list. -/
theorem c6_missing_columns_witness :
    (∃ c ∈ requiredCols,
      c ∉ (["Recent Funding Amount", "Using cloud marketplaces?"] : List String).map pyStrip) ∧
    topFundedCompanies ⟨["Recent Funding Amount", "Using cloud marketplaces?"], []⟩ 5 =
      .error (.missingCols (missedCols ["Recent Funding Amount", "Using cloud marketplaces?"])) := by
  have hex : ∃ c ∈ requiredCols,
      c ∉ (["Recent Funding Amount", "Using cloud marketplaces?"] : List String).map pyStrip :=
    ⟨"Company", by decide, by decide⟩
  exact ⟨hex, (c6_missing_columns ⟨["Recent Funding Amount", "Using cloud marketplaces?"], []⟩
    5 hex).1⟩

/-! ### Claim C2 -/

theorem normRows_append (a b : List Row) :
    normRows (a ++ b) =
      match normRows a, normRows b with
      | .error e, _ => .error e
      | .ok _, .error e => .error e
      | .ok la, .ok lb => .ok (la ++ lb) := by
  induction a with
  | nil =>
    simp only [List.nil_append]
    cases hb : normRows b <;> rfl
  | cons r t ih =>
    cases hr : normRow r
    · simp [normRows, hr]
    · simp only [List.cons_append, normRows, hr]
      rw [show normRows (t.append b) =
          match normRows t, normRows b with
          | .error e, _ => .error e
          | .ok _, .error e => .error e
          | .ok la, .ok lb => .ok (la ++ lb) from ih]
      cases ht : normRows t <;> cases hb : normRows b <;> rfl

theorem validOf_skip (la lb : List NRecord) (r : NRecord) (h : r.funding = none) :
    validOf (la ++ r :: lb) = validOf (la ++ lb) := by
  simp [validOf, List.filterMap_append, List.filterMap_cons, h]

/-- Claim C2 counterexample: a row whose Company is empty after
normalization but whose funding parses is NOT dropped — it reaches the
ranked output, grouped under the empty-string company name. -/
theorem c2_counterexample :
    topFundedCompanies
      ⟨["Company", "Recent Funding Amount", "Using cloud marketplaces?"],
        [⟨some "", some "$5M", some "yes"⟩]⟩ 5 = .ok [("", 5000000, "Yes")] := by
  have h : topFundedCompanies
      ⟨["Company", "Recent Funding Amount", "Using cloud marketplaces?"],
        [⟨some "", some "$5M", some "yes"⟩]⟩ 5 =
      .ok [("", decVal ['5'] * suffMult (some 'M'), "Yes")] := rfl
  rw [h, decVal_eval ['5'] ['5'] [] rfl rfl, show natOf ['5'] = 5 from rfl,
    show natOf [] = 0 from rfl, show suffMult (some 'M') = (1000000 : ℚ) from rfl]
  norm_num

/-- Claim C2, amended: only the funding side of the filter is real — a row
whose funding value parses to the sentinel is dropped before grouping and
contributes nothing to any aggregate or output, without error; rows whose
Company normalizes to the empty string are retained (see the
counterexample). -/
theorem c2_amended :
    ∀ (hdrs : List String) (a b : List Row) (row : Row) (n : ℤ),
      parseFunding row.funding = .ok none →
      topFundedCompanies ⟨hdrs, a ++ row :: b⟩ n = topFundedCompanies ⟨hdrs, a ++ b⟩ n := by
  intro hdrs a b row n h
  have hsplit : ∀ rows : List Row, topFundedCompanies ⟨hdrs, rows⟩ n =
      if (missedCols hdrs).isEmpty then
        match normRows rows with
        | .error e => .error e
        | .ok nrecs => .ok (rank nrecs n)
      else .error (.missingCols (missedCols hdrs)) := fun rows => rfl
  rw [hsplit, hsplit]
  cases hie : (missedCols hdrs).isEmpty
  · rw [if_neg (by simp), if_neg (by simp)]
  · rw [if_pos rfl, if_pos rfl]
    have hrow : normRow row = .ok ⟨normCompany row.company, none, cellStr row.marketplace⟩ := by
      rw [normRow, h]
    have hrb : normRows (row :: b) =
        match normRows b with
        | .error e => .error e
        | .ok lb => .ok (⟨normCompany row.company, none, cellStr row.marketplace⟩ :: lb) := by
      simp only [normRows, hrow]
    rw [normRows_append, normRows_append, hrb]
    cases ha : normRows a with
    | error e => rfl
    | ok la =>
      cases hb : normRows b with
      | error e => rfl
      | ok lb =>
        show Except.ok
            (rank (la ++ ⟨normCompany row.company, none, cellStr row.marketplace⟩ :: lb) n) =
          Except.ok (rank (la ++ lb) n)
        congr 1
        rw [rank, rank, validOf_skip la lb _ rfl]

/-- Claim C2 (amended) witness: inserting a garbage-funding row changes
nothing. -/
theorem c2_amended_witness :
    parseFunding (some "abc") = .ok none ∧
    topFundedCompanies ⟨requiredCols, [⟨some "X", some "abc", some "no"⟩]⟩ 5 =
      topFundedCompanies ⟨requiredCols, []⟩ 5 :=
  ⟨rfl, c2_amended requiredCols [] [] ⟨some "X", some "abc", some "no"⟩ 5 rfl⟩

/-! ### Claim C9 helpers -/

theorem digitChar_iff {c : Char} : digitChar c = true ↔ 48 ≤ c.toNat ∧ c.toNat ≤ 57 := by
  simp [digitChar]

theorem upChar_of_num {c : Char} (h : isNumChar c = true) : upChar c = c := by
  simp only [isNumChar, Bool.or_eq_true, beq_iff_eq] at h
  rcases h with hd | rfl
  · have hr := digitChar_iff.mp hd
    rw [upChar, if_neg]
    intro hl
    have := lowerAlpha_iff.mp hl
    omega
  · rfl

theorem goodChar_of_num {c : Char} (h : isNumChar c = true) : goodChar c = true := by
  simp only [isNumChar, Bool.or_eq_true, beq_iff_eq] at h
  rcases h with hd | rfl
  · simp [goodChar, hd]
  · rfl

theorem not_mem_of_all_num {num : List Char} (hall : num.all isNumChar = true) {L : Char}
    (hL : isNumChar L = false) : L ∉ num :=
  fun hm => absurd (List.all_eq_true.mp hall _ hm) (by simp [hL])

theorem keep_of_goodUp {c : Char} (h : goodChar (upChar c) = true) : keepChar c = true := by
  cases hk : keepChar c
  · exfalso
    have hc : (c == ',' || c == '$' || c == '€' || c == '£') = true := by
      cases hx : (c == ',' || c == '$' || c == '€' || c == '£')
      · rw [keepChar, hx] at hk
        cases hk
      · rfl
    simp only [Bool.or_eq_true, beq_iff_eq] at hc
    rcases hc with ((rfl | rfl) | rfl) | rfl <;> exact absurd h (by decide)
  · rfl

theorem goodUp_false_of_ws {c : Char} (h : wsChar c = true) : goodChar (upChar c) = false := by
  simp only [wsChar, Bool.or_eq_true, beq_iff_eq] at h
  rcases h with ((rfl | rfl) | rfl) | rfl <;> decide

theorem suffChar_up {c : Char} (h : suffChar c = true) :
    (upChar c = 'K' ∨ upChar c = 'M' ∨ upChar c = 'B') ∧ goodChar (upChar c) = true := by
  simp only [suffChar, Bool.or_eq_true, beq_iff_eq] at h
  rcases h with ((((rfl | rfl) | rfl) | rfl) | rfl) | rfl
  · exact ⟨Or.inl (by decide), by decide⟩
  · exact ⟨Or.inr (Or.inl (by decide)), by decide⟩
  · exact ⟨Or.inr (Or.inr (by decide)), by decide⟩
  · exact ⟨Or.inl (by decide), by decide⟩
  · exact ⟨Or.inr (Or.inl (by decide)), by decide⟩
  · exact ⟨Or.inr (Or.inr (by decide)), by decide⟩

theorem filter_sub {p q : Char → Bool} (h : ∀ c, p c = true → q c = true) (l : List Char) :
    (l.filter q).filter p = l.filter p := by
  induction l with
  | nil => rfl
  | cons a t ih =>
    by_cases hp : p a = true
    · have hq := h a hp
      simp [List.filter_cons, hq, hp, ih]
    · have hp2 : p a = false := by revert hp; cases p a <;> simp
      cases hq : q a <;> simp [List.filter_cons, hq, hp2, ih]

theorem filter_dropWhile {p w : Char → Bool} (hw : ∀ c, w c = true → p c = false)
    (l : List Char) : (l.dropWhile w).filter p = l.filter p := by
  conv_rhs => rw [← List.takeWhile_append_dropWhile w l]
  rw [List.filter_append]
  have hnil : (l.takeWhile w).filter p = [] := by
    rw [List.filter_eq_nil_iff]
    intro a ha
    simp [hw a (List.mem_takeWhile_imp ha)]
  rw [hnil, List.nil_append]

theorem filter_stripL {p : Char → Bool} (hw : ∀ c, wsChar c = true → p c = false)
    (l : List Char) : (stripL l).filter p = l.filter p := by
  rw [stripL, List.filter_reverse, filter_dropWhile hw, List.filter_reverse,
    List.reverse_reverse, filter_dropWhile hw]

theorem mapUp_num {num : List Char} (h : num.all isNumChar = true) : num.map upChar = num := by
  have h2 : ∀ c ∈ num, upChar c = id c := fun c hc =>
    upChar_of_num (List.all_eq_true.mp h c hc)
  rw [List.map_congr_left h2, List.map_id]

theorem filter_map_lambda (f : Char → Char) (p : Char → Bool) (l : List Char) :
    (l.map f).filter p = (l.filter (fun c => p (f c))).map f := by
  induction l with
  | nil => rfl
  | cons a t ih => cases hp : p (f a) <;> simp [List.filter_cons, hp, ih]

/-- `cleanMoney`'s character soup equals the uppercased good characters of
`_parse_funding`'s cleaned text: the currency symbols, commas and blanks that
`_parse_funding` strips are all rejected by `re.sub(r"[^0-9.BMK]", ...)`. -/
theorem cleanMoney_filter (s : String) :
    (s.data.map upChar).filter goodChar =
      ((cleanedOf s).filter (fun c => goodChar (upChar c))).map upChar := by
  rw [filter_map_lambda]
  congr 1
  rw [cleanedOf, filter_stripL (fun c hc => goodUp_false_of_ws hc),
    filter_sub (fun c hc => keep_of_goodUp hc) s.data]

theorem chr_contains_iff {l : List Char} {a : Char} : l.contains a = true ↔ a ∈ l :=
  List.elem_iff

theorem chr_contains_false {l : List Char} {a : Char} (h : a ∉ l) : l.contains a = false := by
  cases hb : l.contains a
  · rfl
  · exact absurd (chr_contains_iff.mp hb) h

/-- Inversion of a successful regex match. -/
theorem fundingMatch_inv {t num : List Char} {suf : Option Char}
    (h : fundingMatch t = some (num, suf)) :
    num = t.takeWhile isNumChar ∧ num ≠ [] ∧ num.all isNumChar = true ∧
      ((suf = none ∧ (t.dropWhile isNumChar).dropWhile wsChar = []) ∨
       (∃ c, suf = some c ∧ suffChar c = true ∧
         (t.dropWhile isNumChar).dropWhile wsChar = [c])) := by
  simp only [fundingMatch] at h
  have hall : (t.takeWhile isNumChar).all isNumChar = true := by
    rw [List.all_eq_true]
    exact fun a ha => List.mem_takeWhile_imp ha
  split at h
  · cases h
  · rename_i hne
    have hne2 : t.takeWhile isNumChar ≠ [] := by
      rw [List.isEmpty_iff] at hne
      exact hne
    split at h
    · rename_i hrest
      simp only [Option.some.injEq, Prod.mk.injEq] at h
      exact ⟨h.1.symm, h.1 ▸ hne2, h.1 ▸ hall, Or.inl ⟨h.2.symm, hrest⟩⟩
    · rename_i c hrest
      split at h
      · rename_i hsc
        simp only [Option.some.injEq, Prod.mk.injEq] at h
        exact ⟨h.1.symm, h.1 ▸ hne2, h.1 ▸ hall, Or.inr ⟨c, h.2.symm, hsc, hrest⟩⟩
      · cases h
    · cases h

/-- Inversion of a successful `_parse_funding` run. -/
theorem parse_ok_inv {s : String} {q : ℚ} (h : parseFunding (some s) = .ok (some q)) :
    ∃ num suf, fundingMatch (cleanedOf s) = some (num, suf) ∧ floatOk num = true ∧
      q = decVal num * suffMult suf := by
  simp only [parseFunding] at h
  split at h
  · simp at h
  · rename_i num suf heq
    split at h
    · rename_i hok
      simp only [Except.ok.injEq, Option.some.injEq] at h
      exact ⟨num, suf, heq, hok, h.symm⟩
    · cases h

theorem not_mem_append_single {a X : Char} {l : List Char} (h1 : a ∉ l) (h2 : a ≠ X) :
    a ∉ l ++ [X] := by
  intro hm
  rcases List.mem_append.mp hm with hm | hm
  · exact h1 hm
  · simp at hm
    exact h2 hm

theorem filter_append_single_self {num : List Char} {X : Char} (h : X ∉ num) :
    (num ++ [X]).filter (fun x => !(x == X)) = num := by
  have h1 : ∀ a ∈ num, (!(a == X)) = true := by
    intro a ha
    have hne2 : a ≠ X := by
      intro he
      subst he
      exact h ha
    rw [beq_eq_false_iff_ne.mpr hne2]
    rfl
  have h2 : [X].filter (fun x => !(x == X)) = [] := by simp
  rw [List.filter_append, List.filter_eq_self.mpr h1, h2, List.append_nil]

/-! ### Claim C9 -/

/-- The equivalence the claim asserts between the two parsers, with each
variant's own unparseable/missing outcome (`NaN` for `_parse_funding`, `0`
for `cleanMoney`). -/
def agreesOn (raw : Option String) : Prop :=
  match parseFunding raw with
  | .ok (some q) => cleanMoney raw = q
  | _ => cleanMoney raw = 0

/-- Claim C9 counterexample: on `"5 5"` the regex parser yields the
unparseable sentinel, but `cleanMoney` deletes the interior blank and
fabricates the number 55 — the two parsers are not equivalent. -/
theorem c9_counterexample : ¬ agreesOn (some "5 5") := by
  intro h
  have h2 : cleanMoney (some "5 5") = 0 := h
  have h3 : cleanMoney (some "5 5") = decVal ['5', '5'] * 1 := rfl
  rw [h3, decVal_eval ['5', '5'] ['5', '5'] [] rfl rfl, show natOf ['5', '5'] = 55 from rfl,
    show natOf [] = 0 from rfl] at h2
  norm_num at h2

/-- Claim C9, amended: the equivalence holds on the inputs `_parse_funding`
accepts — whenever the regex parser returns an amount, `cleanMoney` computes
the same amount, and both map a missing cell to their own sentinel. On
strings the regex rejects the two parsers may disagree (see the
counterexample). -/
theorem c9_amended :
    (∀ (s : String) (q : ℚ), parseFunding (some s) = .ok (some q) → cleanMoney (some s) = q) ∧
    cleanMoney none = 0 ∧ parseFunding none = .ok none := by
  refine ⟨?_, rfl, rfl⟩
  intro s q h
  obtain ⟨num, suf, hm, hok, hq⟩ := parse_ok_inv h
  obtain ⟨hnumtw, _hnumne, hnumall, hsufcase⟩ := fundingMatch_inv hm
  have hnumfil : num.filter (fun c => goodChar (upChar c)) = num := by
    rw [List.filter_eq_self]
    intro a ha
    have hnc := List.all_eq_true.mp hnumall a ha
    rw [upChar_of_num hnc]
    exact goodChar_of_num hnc
  have hkey := cleanMoney_filter s
  have hBnot : 'B' ∉ num := not_mem_of_all_num hnumall (by decide)
  have hMnot : 'M' ∉ num := not_mem_of_all_num hnumall (by decide)
  have hKnot : 'K' ∉ num := not_mem_of_all_num hnumall (by decide)
  rcases hsufcase with ⟨rfl, hrest⟩ | ⟨c, rfl, hsc, hrest⟩
  · have hfil : (cleanedOf s).filter (fun c => goodChar (upChar c)) = num := by
      conv_lhs => rw [← List.takeWhile_append_dropWhile isNumChar (cleanedOf s)]
      rw [List.filter_append, ← hnumtw, hnumfil]
      have hwsall : ∀ x ∈ (cleanedOf s).dropWhile isNumChar, wsChar x :=
        List.dropWhile_eq_nil_iff.mp hrest
      have hnil : ((cleanedOf s).dropWhile isNumChar).filter
          (fun c => goodChar (upChar c)) = [] := by
        rw [List.filter_eq_nil_iff]
        intro a ha
        simp [goodUp_false_of_ws (hwsall a ha)]
      rw [hnil, List.append_nil]
    have hm2 : (s.data.map upChar).filter goodChar = num := by
      rw [hkey, hfil, mapUp_num hnumall]
    simp only [cleanMoney, hm2]
    rw [if_neg (fun hc => hBnot (chr_contains_iff.mp hc)),
      if_neg (fun hc => hMnot (chr_contains_iff.mp hc)),
      if_neg (fun hc => hKnot (chr_contains_iff.mp hc)),
      floatOr0, if_pos hok, hq, show suffMult none = (1 : ℚ) from rfl]
  · obtain ⟨hU, hgoodup⟩ := suffChar_up hsc
    have hfil : (cleanedOf s).filter (fun c2 => goodChar (upChar c2)) = num ++ [c] := by
      conv_lhs => rw [← List.takeWhile_append_dropWhile isNumChar (cleanedOf s)]
      rw [List.filter_append, ← hnumtw, hnumfil]
      congr 1
      conv_lhs =>
        rw [← List.takeWhile_append_dropWhile wsChar ((cleanedOf s).dropWhile isNumChar)]
      rw [List.filter_append, hrest]
      have hnil : (((cleanedOf s).dropWhile isNumChar).takeWhile wsChar).filter
          (fun c2 => goodChar (upChar c2)) = [] := by
        rw [List.filter_eq_nil_iff]
        intro a ha
        simp [goodUp_false_of_ws (List.mem_takeWhile_imp ha)]
      rw [hnil, List.nil_append]
      simp [List.filter_cons, hgoodup]
    have hm2 : (s.data.map upChar).filter goodChar = num ++ [upChar c] := by
      rw [hkey, hfil, List.map_append, mapUp_num hnumall]
      rfl
    rcases hU with hUc | hUc | hUc
    · rw [hUc] at hm2
      have hcB := not_mem_append_single hBnot (show ('B' : Char) ≠ 'K' from by decide)
      have hcM := not_mem_append_single hMnot (show ('M' : Char) ≠ 'K' from by decide)
      have hcK : (num ++ ['K']).contains 'K' = true :=
        chr_contains_iff.mpr (List.mem_append_right _ (by simp))
      simp only [cleanMoney, hm2]
      rw [if_neg (fun hc => hcB (chr_contains_iff.mp hc)),
        if_neg (fun hc => hcM (chr_contains_iff.mp hc)), if_pos hcK,
        filter_append_single_self hKnot, floatOr0, if_pos hok, hq,
        show suffMult (some c) = (1000 : ℚ) from by simp [suffMult, hUc]]
    · rw [hUc] at hm2
      have hcB := not_mem_append_single hBnot (show ('B' : Char) ≠ 'M' from by decide)
      have hcM : (num ++ ['M']).contains 'M' = true :=
        chr_contains_iff.mpr (List.mem_append_right _ (by simp))
      simp only [cleanMoney, hm2]
      rw [if_neg (fun hc => hcB (chr_contains_iff.mp hc)), if_pos hcM,
        filter_append_single_self hMnot, floatOr0, if_pos hok, hq,
        show suffMult (some c) = (1000000 : ℚ) from by simp [suffMult, hUc]]
    · rw [hUc] at hm2
      have hcB : (num ++ ['B']).contains 'B' = true :=
        chr_contains_iff.mpr (List.mem_append_right _ (by simp))
      simp only [cleanMoney, hm2]
      rw [if_pos hcB, filter_append_single_self hBnot, floatOr0, if_pos hok, hq,
        show suffMult (some c) = (1000000000 : ℚ) from by simp [suffMult, hUc]]

/-- Claim C9 (amended) witness: both parsers agree on `"$2.5M"`. -/
theorem c9_amended_witness :
    parseFunding (some "$2.5M") = .ok (some 2500000) ∧
    cleanMoney (some "$2.5M") = 2500000 :=
  ⟨parse_25M, c9_amended.1 "$2.5M" 2500000 parse_25M⟩

end F33

/-! Sanity examples (character-level computations are kernel-decidable). -/

example : F33.fundingMatch (F33.cleanedOf "$2.5M") = some (['2', '.', '5'], some 'M') := by
  decide

example : F33.parseFunding (some "") = .ok none := rfl

example : F33.parseFunding (some "abc") = .ok none := rfl

example : F33.parseFunding (some "1.2.3") = .error () := rfl
